import Mathlib

/-!
Verification of the self-update subsystem of the `cicd_golang_calculator`
repository.  The Go sources under `internal/updater` (semantic-version
parsing and ordering, channel classification, the eligibility resolver
`FindLatestEligibleRelease` / `CheckForUpdatesWithResult`, the executable
signature validator, and the download size gate) are embedded shallowly:
strings are handled as `List Char`, Go `int` as `Int` with the 64-bit
range check that `strconv.Atoi` performs, file contents as `List Nat`
(byte values), and the process environment as explicit string parameters
holding the values of `CALC_ALLOW_ALPHA` / `CALC_ALLOW_BETA`.
-/

namespace CalcUpdater

/-! ## Basic string helpers (Go `strings` package fragments on `List Char`) -/

/-- `startsWithL s p`: `p` is a leading segment of `s`
(`strings.HasPrefix(s, p)`). -/
def startsWithL : List Char → List Char → Bool
  | _, [] => true
  | [], _ :: _ => false
  | c :: cs, p :: ps => c = p && startsWithL cs ps

/-- `hasSubL s sub`: `sub` occurs contiguously inside `s`
(`strings.Contains(s, sub)`). -/
def hasSubL (s sub : List Char) : Bool :=
  startsWithL s sub ||
    match s with
    | [] => false
    | _ :: rest => hasSubL rest sub

/-- `endsWithL s suf`: `suf` is a trailing segment of `s`
(`strings.HasSuffix(s, suf)`). -/
def endsWithL (s suf : List Char) : Bool :=
  startsWithL s.reverse suf.reverse

/-- `strings.TrimSuffix(s, suf)`: remove one trailing occurrence of `suf`
when present, otherwise return `s` unchanged. -/
def dropTrailL (s suf : List Char) : List Char :=
  if endsWithL s suf then s.take (s.length - suf.length) else s

/-- `strings.TrimPrefix(version, "v")` as used by `ParseSemanticVersion`:
remove one leading `'v'` when present. -/
def dropLeadV (s : List Char) : List Char :=
  match s with
  | 'v' :: rest => rest
  | _ => s

/-- `strings.Split(s, ".")` for the one-character separator `'.'`.
Like Go's `Split`, the result is never empty: splitting the empty string
yields `[[]]`. -/
def splitDot : List Char → List (List Char)
  | [] => [[]]
  | c :: rest =>
    if c = '.' then [] :: splitDot rest
    else
      match splitDot rest with
      | p :: ps => (c :: p) :: ps
      | [] => [[c]]

/-! ## `strconv.Atoi` (base 10, 64-bit `int`) -/

/-- Decimal value of a digit string (most significant digit first). -/
def digitsToNat (ds : List Char) : Nat :=
  ds.foldl (fun a c => a * 10 + (c.toNat - 48)) 0

def int64Max : Int := 9223372036854775807

def int64Min : Int := -9223372036854775808

/-- `strconv.Atoi`: optional sign, then one or more decimal digits, with
the 64-bit `int` range check (`ErrRange` on overflow). -/
def goAtoi (s : List Char) : Option Int :=
  match s with
  | [] => none
  | c0 :: rest =>
    let neg : Bool := c0 = '-'
    let ds : List Char := if c0 = '-' ∨ c0 = '+' then rest else s
    if ds = [] then none
    else if ds.all Char.isDigit then
      let v : Int := if neg then -(digitsToNat ds : Int) else (digitsToNat ds : Int)
      if v < int64Min ∨ int64Max < v then none else some v
    else none

/-! ## Semantic version model (`updater.SemanticVersion`) -/

structure SemanticVersion where
  major : Int
  minor : Int
  patch : Int
  preRelease : String
  isAlpha : Bool
  isBeta : Bool
deriving Repr, DecidableEq

/-- Numeric tail of `ParseSemanticVersion`: split on `'.'`, demand exactly
three components, convert each with `Atoi`. -/
def parseTail (ia ib : Bool) (pre : String) (v2 : List Char) : Option SemanticVersion :=
  match splitDot v2 with
  | [a, b, c] =>
    match goAtoi a, goAtoi b, goAtoi c with
    | some ma, some mi, some pa =>
      some { major := ma, minor := mi, patch := pa, preRelease := pre, isAlpha := ia, isBeta := ib }
    | _, _, _ => none
  | _ => none

/-- `updater.ParseSemanticVersion` on a character list: strip an optional
leading `'v'`; if the text contains `"-alpha"` mark the version alpha and
trim that suffix (when it is one), else if it contains `"-beta"` mark it
beta and trim; then parse `major.minor.patch`. -/
def parseSemVerL (l : List Char) : Option SemanticVersion :=
  let v := dropLeadV l
  if hasSubL v ("-alpha".toList) then
    parseTail true false "alpha" (dropTrailL v ("-alpha".toList))
  else if hasSubL v ("-beta".toList) then
    parseTail false true "beta" (dropTrailL v ("-beta".toList))
  else
    parseTail false false "" v

/-- `updater.ParseSemanticVersion`. -/
def parseSemanticVersion (version : String) : Option SemanticVersion :=
  parseSemVerL version.toList

/-- `(*SemanticVersion).IsNewerThan`: lexicographic on
major/minor/patch, then stable > prerelease and beta > alpha. -/
def isNewerThan (sv other : SemanticVersion) : Bool :=
  if sv.major ≠ other.major then decide (other.major < sv.major)
  else if sv.minor ≠ other.minor then decide (other.minor < sv.minor)
  else if sv.patch ≠ other.patch then decide (other.patch < sv.patch)
  else if sv.preRelease = "" ∧ other.preRelease ≠ "" then true
  else if sv.preRelease ≠ "" ∧ other.preRelease = "" then false
  else if (sv.preRelease ≠ "" ∧ other.preRelease ≠ "") ∧ sv.isBeta = true ∧ other.isAlpha = true then true
  else false

example : parseSemanticVersion "v1.2.3-beta" =
    some { major := 1, minor := 2, patch := 3, preRelease := "beta", isAlpha := false, isBeta := true } := by
  decide

example : parseSemanticVersion "1.0" = none := by decide

example : parseSemanticVersion "1.2.-3" =
    some { major := 1, minor := 2, patch := -3, preRelease := "", isAlpha := false, isBeta := false } := by
  decide

example : parseSemanticVersion "v1.0.0-ALPHA" = none := by decide

/-! ## Environment flags (`updater.isEnvVarTrue`) -/

/-- `unicode.IsSpace` (the White_Space code points Go recognizes). -/
def isGoSpace (c : Char) : Bool :=
  let n := c.toNat
  decide (n = 0x20 ∨ (0x9 ≤ n ∧ n ≤ 0xD) ∨ n = 0x85 ∨ n = 0xA0 ∨ n = 0x1680 ∨
    (0x2000 ≤ n ∧ n ≤ 0x200A) ∨ n = 0x2028 ∨ n = 0x2029 ∨ n = 0x202F ∨ n = 0x205F ∨ n = 0x3000)

/-- `strings.TrimSpace`: drop White_Space characters from both ends. -/
def goTrimSpace (l : List Char) : List Char :=
  ((l.dropWhile isGoSpace).reverse.dropWhile isGoSpace).reverse

/-- ASCII case mapping of `strings.ToLower` (the strings this code
compares flag values against are ASCII). -/
def goLowerChar : Char → Char
  | 'A' => 'a' | 'B' => 'b' | 'C' => 'c' | 'D' => 'd' | 'E' => 'e' | 'F' => 'f'
  | 'G' => 'g' | 'H' => 'h' | 'I' => 'i' | 'J' => 'j' | 'K' => 'k' | 'L' => 'l'
  | 'M' => 'm' | 'N' => 'n' | 'O' => 'o' | 'P' => 'p' | 'Q' => 'q' | 'R' => 'r'
  | 'S' => 's' | 'T' => 't' | 'U' => 'u' | 'V' => 'v' | 'W' => 'w' | 'X' => 'x'
  | 'Y' => 'y' | 'Z' => 'z'
  | c => c

/-- `strings.ToLower` on a character list. -/
def goToLower (l : List Char) : List Char :=
  l.map goLowerChar

/-- `updater.isEnvVarTrue`, applied to the raw value of the environment
variable (Go's `os.Getenv` returns `""` when the variable is unset). -/
def isEnvVarTrue (raw : String) : Bool :=
  let value := goToLower (goTrimSpace raw.toList)
  decide (value ≠ []) && decide (value ≠ ['0']) && decide (value ≠ "false".toList)

example : isEnvVarTrue "1" = true := by decide
example : isEnvVarTrue "" = false := by decide
example : isEnvVarTrue "FALSE" = false := by decide
example : isEnvVarTrue " 0" = false := by decide

/-! ## Releases and the eligibility resolver -/

/-- `updater.Release` (manifest entry). -/
structure Release where
  version : String
  urls : List (String × String)
  isAlpha : Bool
  isBeta : Bool
  releaseDate : String
deriving Repr, DecidableEq

/-- Channel string computed from a release's manifest flags, exactly as
both resolver loops compute `releaseChannel`. -/
def channelOfRelease (r : Release) : String :=
  if r.isAlpha then "alpha" else if r.isBeta then "beta" else "stable"

/-- Channel string computed from the parsed current version, exactly as
both resolvers compute `currentChannel`. -/
def channelOfVersion (sv : SemanticVersion) : String :=
  if sv.isAlpha then "alpha" else if sv.isBeta then "beta" else "stable"

/-- The shared scan of both resolver loops: walk the release list,
skip entries whose version does not parse, skip entries not strictly
newer than `cur`, skip entries failing the eligibility predicate `p`,
and keep a running maximum (replace the accumulator exactly when the
new entry's version `IsNewerThan` the accumulated one). -/
def scanEligible (p : Release → Bool) (cur : SemanticVersion) :
    List Release → Option (Release × SemanticVersion) → Option (Release × SemanticVersion)
  | [], acc => acc
  | r :: rest, acc =>
    match parseSemanticVersion r.version with
    | none => scanEligible p cur rest acc
    | some rv =>
      if isNewerThan rv cur = false then scanEligible p cur rest acc
      else if p r = false then scanEligible p cur rest acc
      else
        match acc with
        | none => scanEligible p cur rest (some (r, rv))
        | some (lr, lv) =>
          if isNewerThan rv lv then scanEligible p cur rest (some (r, rv))
          else scanEligible p cur rest (some (lr, lv))

/-- The channel-isolation switch of `FindLatestEligibleRelease`: a release
is eligible iff its channel equals the current channel and, for the two
prerelease channels, the matching permission flag is granted. -/
def eligibleByChannel (allowAlpha allowBeta : Bool) (currentChannel releaseChannel : String) : Bool :=
  if currentChannel = "alpha" then decide (releaseChannel = "alpha") && allowAlpha
  else if currentChannel = "beta" then decide (releaseChannel = "beta") && allowBeta
  else if currentChannel = "stable" then decide (releaseChannel = "stable")
  else false

/-- `updater.FindLatestEligibleRelease` (final revision).  `envAlpha` and
`envBeta` are the values of `CALC_ALLOW_ALPHA` and `CALC_ALLOW_BETA`. -/
def findLatestEligibleRelease (envAlpha envBeta : String) (releases : List Release)
    (currentVersion : String) : Option Release :=
  let allowAlpha := isEnvVarTrue envAlpha
  let allowBeta := isEnvVarTrue envBeta
  match parseSemanticVersion currentVersion with
  | none => none
  | some currentSemVer =>
    let currentChannel := channelOfVersion currentSemVer
    (scanEligible (fun r => eligibleByChannel allowAlpha allowBeta currentChannel (channelOfRelease r))
        currentSemVer releases none).map (fun z => z.1)

/-- `updater.UpdateCheckResult`. -/
structure UpdateCheckResult where
  hasUpdate : Bool
  latestRelease : Option Release
  isGated : Bool
  requiredEnvVar : String
  currentChannel : String
deriving Repr, DecidableEq

/-- `updater.CheckForUpdatesWithResult`: find the newest strictly-newer
release in the current channel (no permission filter during the scan),
then mark the decision gated when the channel's flag is missing. -/
def checkForUpdatesWithResult (envAlpha envBeta : String) (releases : List Release)
    (currentVersion : String) : UpdateCheckResult :=
  match parseSemanticVersion currentVersion with
  | none =>
    { hasUpdate := false, latestRelease := none, isGated := false,
      requiredEnvVar := "", currentChannel := "" }
  | some currentSemVer =>
    let currentChannel := channelOfVersion currentSemVer
    let requiredEnvVar :=
      if currentSemVer.isAlpha then "CALC_ALLOW_ALPHA"
      else if currentSemVer.isBeta then "CALC_ALLOW_BETA"
      else ""
    let allowAlpha := isEnvVarTrue envAlpha
    let allowBeta := isEnvVarTrue envBeta
    match scanEligible (fun r => decide (channelOfRelease r = currentChannel))
        currentSemVer releases none with
    | none =>
      { hasUpdate := false, latestRelease := none, isGated := false,
        requiredEnvVar := requiredEnvVar, currentChannel := currentChannel }
    | some z =>
      { hasUpdate := true, latestRelease := some z.1,
        isGated :=
          if currentChannel = "alpha" then !allowAlpha
          else if currentChannel = "beta" then !allowBeta
          else false,
        requiredEnvVar := requiredEnvVar, currentChannel := currentChannel }

/-! ## Executable signature validation (`internal/updater/validation.go`) -/

/-- `updater.checkELF`: `0x7F 'E' 'L' 'F'`. -/
def checkELF (header : List Nat) : Bool :=
  match header with
  | b0 :: b1 :: b2 :: b3 :: _ => b0 = 0x7F && b1 = 0x45 && b2 = 0x4C && b3 = 0x46
  | _ => false

/-- `updater.checkMachO`: the four Mach-O magics in either byte order. -/
def checkMachO (header : List Nat) : Bool :=
  match header with
  | b0 :: b1 :: b2 :: b3 :: _ =>
    (b0 = 0xFE && b1 = 0xED && b2 = 0xFA && b3 = 0xCE) ||
    (b0 = 0xCE && b1 = 0xFA && b2 = 0xED && b3 = 0xFE) ||
    (b0 = 0xFE && b1 = 0xED && b2 = 0xFA && b3 = 0xCF) ||
    (b0 = 0xCF && b1 = 0xFA && b2 = 0xED && b3 = 0xFE)
  | _ => false

/-- `updater.checkPE`: `'M' 'Z'`. -/
def checkPE (header : List Nat) : Bool :=
  match header with
  | b0 :: b1 :: _ => b0 = 0x4D && b1 = 0x5A
  | _ => false

/-- `updater.IsValidExecutable` on the file's byte content: read up to 16
bytes into a zero-filled buffer; fewer than 4 bytes read is a failure;
otherwise test the three signature families. -/
def isValidExecutable (content : List Nat) : Bool :=
  let header := content.take 16 ++ List.replicate (16 - (content.take 16).length) 0
  if min content.length 16 < 4 then false
  else checkELF header || checkMachO header || checkPE header

example : isValidExecutable [0x7F, 0x45, 0x4C, 0x46, 0, 0] = true := by decide
example : isValidExecutable [0x4D, 0x5A, 0x90, 0x00] = true := by decide
example : isValidExecutable [0x4D, 0x5A] = false := by decide

/-! ## Download size gate (`internal/updater/download.go`) -/

/-- `updater.writeTemporaryFile`, modelled on the pure data of one
download: whether `os.Create` succeeded, whether `io.Copy` errored, and
how many bytes the body wrote.  The result is
`(returned-bool, temp-file-still-on-disk)`. -/
def writeTemporaryFile (createOk : Bool) (copyErr : Bool) (bytesWritten : Nat) : Bool × Bool :=
  if createOk = false then (false, false)
  else if copyErr then (false, false)
  else if bytesWritten < 1024 then (false, false)
  else (true, true)

/-- `updater.DownloadBinary` after the HTTP stage, modelled on the pure
outcomes of its fallible steps.  The result is
`(returned-bool, temp-file-still-on-disk, renamed-onto-executable)`; the
deferred cleanup removes the temp file on every early exit. -/
def downloadBinary (createOk copyErr : Bool) (bytesWritten : Nat)
    (sigValid chmodOk smokeOk renameOk : Bool) : Bool × Bool × Bool :=
  match writeTemporaryFile createOk copyErr bytesWritten with
  | (false, t) => (false, t, false)
  | (true, _) =>
    if sigValid = false then (false, false, false)
    else if chmodOk = false then (false, false, false)
    else if smokeOk = false then (false, false, false)
    else if renameOk then (true, false, true)
    else (false, false, false)

/-! ## Well-formedness of parsed versions and the version order -/

/-- The three field configurations `ParseSemanticVersion` can produce:
the prerelease string and the two channel flags always agree. -/
def WFVer (sv : SemanticVersion) : Prop :=
  (sv.preRelease = "" ∧ sv.isAlpha = false ∧ sv.isBeta = false) ∨
  (sv.preRelease = "alpha" ∧ sv.isAlpha = true ∧ sv.isBeta = false) ∨
  (sv.preRelease = "beta" ∧ sv.isAlpha = false ∧ sv.isBeta = true)

theorem parseTail_fields {ia ib : Bool} {pre : String} {v2 : List Char} {sv : SemanticVersion}
    (h : parseTail ia ib pre v2 = some sv) :
    sv.preRelease = pre ∧ sv.isAlpha = ia ∧ sv.isBeta = ib := by
  unfold parseTail at h
  split at h
  · split at h
    · obtain rfl : _ = sv := Option.some.inj h
      exact ⟨rfl, rfl, rfl⟩
    · exact absurd h (by simp)
  · exact absurd h (by simp)

theorem parseSemVerL_WF {s : List Char} {sv : SemanticVersion}
    (h : parseSemVerL s = some sv) : WFVer sv := by
  simp only [parseSemVerL] at h
  split at h
  · right; left; exact parseTail_fields h
  · split at h
    · right; right; exact parseTail_fields h
    · left; exact parseTail_fields h

theorem parse_WF {s : String} {sv : SemanticVersion}
    (h : parseSemanticVersion s = some sv) : WFVer sv :=
  parseSemVerL_WF h

/-- Rank of the prerelease tier at an equal numeric triple:
stable 2, beta 1, alpha 0. -/
def tagRank (sv : SemanticVersion) : Nat :=
  if sv.preRelease = "" then 2 else if sv.isBeta then 1 else 0

/-- On well-formed versions `IsNewerThan` is the strict lexicographic
order on `(major, minor, patch, tagRank)`. -/
theorem isNewerThan_iff {a b : SemanticVersion} (ha : WFVer a) (hb : WFVer b) :
    isNewerThan a b = true ↔
      (b.major < a.major ∨ (a.major = b.major ∧ (b.minor < a.minor ∨ (a.minor = b.minor ∧
        (b.patch < a.patch ∨ (a.patch = b.patch ∧ tagRank b < tagRank a)))))) := by
  obtain ⟨h1, h2, h3⟩ | ⟨h1, h2, h3⟩ | ⟨h1, h2, h3⟩ := ha <;>
    obtain ⟨g1, g2, g3⟩ | ⟨g1, g2, g3⟩ | ⟨g1, g2, g3⟩ := hb <;>
      (simp +decide only [isNewerThan, tagRank, h1, h2, h3, g1, g2, g3]
       split_ifs <;>
         (try simp only [decide_eq_true_eq, true_iff, false_iff, iff_true, iff_false,
           and_true, true_and, and_false, false_and, or_false, false_or]) <;>
         first
         | omega
         | simp_all)

theorem newer_trans {a b c : SemanticVersion} (ha : WFVer a) (hb : WFVer b) (hc : WFVer c)
    (h1 : isNewerThan a b = true) (h2 : isNewerThan b c = true) :
    isNewerThan a c = true := by
  rw [isNewerThan_iff ha hb] at h1
  rw [isNewerThan_iff hb hc] at h2
  rw [isNewerThan_iff ha hc]
  omega

theorem newer_asymm {a b : SemanticVersion} (ha : WFVer a) (hb : WFVer b)
    (h1 : isNewerThan a b = true) : isNewerThan b a = false := by
  rw [isNewerThan_iff ha hb] at h1
  rw [Bool.eq_false_iff, Ne, isNewerThan_iff hb ha]
  omega

theorem eq_of_not_newer {a b : SemanticVersion} (ha : WFVer a) (hb : WFVer b)
    (h1 : isNewerThan a b = false) (h2 : isNewerThan b a = false) : a = b := by
  rw [Bool.eq_false_iff, Ne, isNewerThan_iff ha hb] at h1
  rw [Bool.eq_false_iff, Ne, isNewerThan_iff hb ha] at h2
  have hM : a.major = b.major := by omega
  have hm : a.minor = b.minor := by omega
  have hp : a.patch = b.patch := by omega
  have ht : tagRank a = tagRank b := by omega
  clear h1 h2
  obtain ⟨pa, qa, ra⟩ | ⟨pa, qa, ra⟩ | ⟨pa, qa, ra⟩ := ha <;>
    obtain ⟨pb, qb, rb⟩ | ⟨pb, qb, rb⟩ | ⟨pb, qb, rb⟩ := hb <;>
      (cases a; cases b; simp_all [tagRank])

theorem newer_irrefl {a : SemanticVersion} (ha : WFVer a) : isNewerThan a a = false := by
  cases hvv : isNewerThan a a with
  | false => rfl
  | true => have h := newer_asymm ha ha hvv; rw [hvv] at h; cases h

/-- C5: the comparison `IsNewerThan` — major, then minor, then patch
numerically, then Stable over Beta over Alpha at an equal triple — is a
strict total order on parsed versions: exactly one of `a` newer than `b`,
`b` newer than `a`, or `a = b` holds, and the relation is transitive and
antisymmetric. -/
theorem C5_version_strict_total_order
    {sa sb sc : String} {a b c : SemanticVersion}
    (ha : parseSemanticVersion sa = some a)
    (hb : parseSemanticVersion sb = some b)
    (hc : parseSemanticVersion sc = some c) :
    ((isNewerThan a b = true ∧ isNewerThan b a = false ∧ a ≠ b) ∨
     (isNewerThan b a = true ∧ isNewerThan a b = false ∧ a ≠ b) ∨
     (a = b ∧ isNewerThan a b = false ∧ isNewerThan b a = false)) ∧
    (isNewerThan a b = true → isNewerThan b c = true → isNewerThan a c = true) ∧
    (isNewerThan a b = true → isNewerThan b a = false) := by
  have wa := parse_WF ha
  have wb := parse_WF hb
  have wc := parse_WF hc
  refine ⟨?_, fun h1 h2 => newer_trans wa wb wc h1 h2, fun h1 => newer_asymm wa wb h1⟩
  by_cases h1 : isNewerThan a b = true
  · refine Or.inl ⟨h1, newer_asymm wa wb h1, fun he => ?_⟩
    rw [he, newer_irrefl wb] at h1
    cases h1
  · by_cases h2 : isNewerThan b a = true
    · refine Or.inr (Or.inl ⟨h2, by simpa using h1, fun he => ?_⟩)
      rw [he, newer_irrefl wb] at h2
      cases h2
    · have hf1 : isNewerThan a b = false := by simpa using h1
      have hf2 : isNewerThan b a = false := by simpa using h2
      exact Or.inr (Or.inr ⟨eq_of_not_newer wa wb hf1 hf2, hf1, hf2⟩)

theorem C5_version_strict_total_order_witness :
    ((isNewerThan ⟨1, 2, 3, "beta", false, true⟩ ⟨1, 2, 3, "alpha", true, false⟩ = true ∧
      isNewerThan ⟨1, 2, 3, "alpha", true, false⟩ ⟨1, 2, 3, "beta", false, true⟩ = false ∧
      (⟨1, 2, 3, "beta", false, true⟩ : SemanticVersion) ≠ ⟨1, 2, 3, "alpha", true, false⟩) ∨
     (isNewerThan ⟨1, 2, 3, "alpha", true, false⟩ ⟨1, 2, 3, "beta", false, true⟩ = true ∧
      isNewerThan ⟨1, 2, 3, "beta", false, true⟩ ⟨1, 2, 3, "alpha", true, false⟩ = false ∧
      (⟨1, 2, 3, "beta", false, true⟩ : SemanticVersion) ≠ ⟨1, 2, 3, "alpha", true, false⟩) ∨
     ((⟨1, 2, 3, "beta", false, true⟩ : SemanticVersion) = ⟨1, 2, 3, "alpha", true, false⟩ ∧
      isNewerThan ⟨1, 2, 3, "beta", false, true⟩ ⟨1, 2, 3, "alpha", true, false⟩ = false ∧
      isNewerThan ⟨1, 2, 3, "alpha", true, false⟩ ⟨1, 2, 3, "beta", false, true⟩ = false)) ∧
    (isNewerThan ⟨1, 2, 3, "beta", false, true⟩ ⟨1, 2, 3, "alpha", true, false⟩ = true →
      isNewerThan ⟨1, 2, 3, "alpha", true, false⟩ ⟨1, 2, 2, "", false, false⟩ = true →
      isNewerThan ⟨1, 2, 3, "beta", false, true⟩ ⟨1, 2, 2, "", false, false⟩ = true) ∧
    (isNewerThan ⟨1, 2, 3, "beta", false, true⟩ ⟨1, 2, 3, "alpha", true, false⟩ = true →
      isNewerThan ⟨1, 2, 3, "alpha", true, false⟩ ⟨1, 2, 3, "beta", false, true⟩ = false) :=
  C5_version_strict_total_order
    (by decide : parseSemanticVersion "v1.2.3-beta" = some ⟨1, 2, 3, "beta", false, true⟩)
    (by decide : parseSemanticVersion "v1.2.3-alpha" = some ⟨1, 2, 3, "alpha", true, false⟩)
    (by decide : parseSemanticVersion "v1.2.2" = some ⟨1, 2, 2, "", false, false⟩)

/-! ## Invariants of the shared resolver scan -/

theorem scanEligible_some_inv {p : Release → Bool} {cur : SemanticVersion} :
    ∀ {rs : List Release} {acc : Option (Release × SemanticVersion)}
      {z : Release × SemanticVersion},
      scanEligible p cur rs acc = some z →
      acc = some z ∨
        (z.1 ∈ rs ∧ parseSemanticVersion z.1.version = some z.2 ∧
          isNewerThan z.2 cur = true ∧ p z.1 = true) := by
  intro rs
  induction rs with
  | nil =>
    intro acc z h
    simp only [scanEligible] at h
    exact Or.inl h
  | cons r rest ih =>
    intro acc z h
    simp only [scanEligible] at h
    cases hp : parseSemanticVersion r.version with
    | none =>
      simp only [hp] at h
      refine (ih h).imp_right fun ⟨hm, hrest⟩ => ⟨List.mem_cons_of_mem _ hm, hrest⟩
    | some rv =>
      simp only [hp] at h
      split at h
      · refine (ih h).imp_right fun ⟨hm, hrest⟩ => ⟨List.mem_cons_of_mem _ hm, hrest⟩
      · split at h
        · refine (ih h).imp_right fun ⟨hm, hrest⟩ => ⟨List.mem_cons_of_mem _ hm, hrest⟩
        · rename_i hnew hel
          have hnew' : isNewerThan rv cur = true := by simpa using hnew
          have hel' : p r = true := by simpa using hel
          split at h
          · rcases ih h with heq | ⟨hm, hrest⟩
            · obtain rfl : (r, rv) = z := Option.some.inj heq
              exact Or.inr ⟨List.mem_cons_self _ _, hp, hnew', hel'⟩
            · exact Or.inr ⟨List.mem_cons_of_mem _ hm, hrest⟩
          · split at h
            · rcases ih h with heq | ⟨hm, hrest⟩
              · obtain rfl : (r, rv) = z := Option.some.inj heq
                exact Or.inr ⟨List.mem_cons_self _ _, hp, hnew', hel'⟩
              · exact Or.inr ⟨List.mem_cons_of_mem _ hm, hrest⟩
            · rcases ih h with heq | ⟨hm, hrest⟩
              · exact Or.inl heq
              · exact Or.inr ⟨List.mem_cons_of_mem _ hm, hrest⟩

/-- Whatever the scan returns carries the parse of its own version text. -/
theorem scanEligible_parse {p : Release → Bool} {cur : SemanticVersion}
    {rs : List Release} {acc : Option (Release × SemanticVersion)}
    {z : Release × SemanticVersion}
    (h : scanEligible p cur rs acc = some z)
    (hacc : ∀ w, acc = some w → parseSemanticVersion w.1.version = some w.2) :
    parseSemanticVersion z.1.version = some z.2 := by
  rcases scanEligible_some_inv h with heq | ⟨_, hp, _, _⟩
  · exact hacc z heq
  · exact hp

/-- Once the running maximum is occupied it never empties. -/
theorem scanEligible_isSome_of_acc {p : Release → Bool} {cur : SemanticVersion} :
    ∀ {rs : List Release} {yr : Release} {yv : SemanticVersion},
      (scanEligible p cur rs (some (yr, yv))).isSome = true := by
  intro rs
  induction rs with
  | nil => intro yr yv; simp [scanEligible]
  | cons r rest ih =>
    intro yr yv
    simp only [scanEligible]
    cases hp : parseSemanticVersion r.version with
    | none => exact ih
    | some rv => repeat' (first | exact ih | split)

/-- An eligible strictly-newer entry in the list forces the scan to
return something. -/
theorem scanEligible_isSome_of_mem {p : Release → Bool} {cur : SemanticVersion} :
    ∀ {rs : List Release} {acc : Option (Release × SemanticVersion)}
      {r : Release} {rv : SemanticVersion},
      r ∈ rs → parseSemanticVersion r.version = some rv →
      isNewerThan rv cur = true → p r = true →
      (scanEligible p cur rs acc).isSome = true := by
  intro rs
  induction rs with
  | nil => intro acc r rv hm; cases hm
  | cons r' rest ih =>
    intro acc r rv hm hp hn hel
    rcases List.mem_cons.mp hm with rfl | hm'
    · simp only [scanEligible, hp]
      split
      · next hc => rw [hn] at hc; exact absurd hc (by decide)
      · split
        · next hc => rw [hel] at hc; exact absurd hc (by decide)
        · repeat' (first | exact scanEligible_isSome_of_acc | split)
    · simp only [scanEligible]
      cases hp' : parseSemanticVersion r'.version with
      | none => exact ih hm' hp hn hel
      | some rv' => repeat' (first | exact ih hm' hp hn hel | split)

/-- The scan's result is never beaten by the accumulator it started from. -/
theorem scanEligible_ge_acc {p : Release → Bool} {cur : SemanticVersion} :
    ∀ {rs : List Release} {yr : Release} {yv : SemanticVersion}
      {z : Release × SemanticVersion},
      scanEligible p cur rs (some (yr, yv)) = some z →
      parseSemanticVersion yr.version = some yv →
      isNewerThan yv z.2 = false := by
  intro rs
  induction rs with
  | nil =>
    intro yr yv z h hy
    simp only [scanEligible] at h
    obtain rfl : (yr, yv) = z := Option.some.inj h
    exact newer_irrefl (parse_WF hy)
  | cons r rest ih =>
    intro yr yv z h hy
    simp only [scanEligible] at h
    cases hp : parseSemanticVersion r.version with
    | none => simp only [hp] at h; exact ih h hy
    | some rv =>
      simp only [hp] at h
      split at h
      · exact ih h hy
      · split at h
        · exact ih h hy
        · split at h
          · rename_i hgt
            have hrz : isNewerThan rv z.2 = false := ih h hp
            have wyv := parse_WF hy
            have wrv := parse_WF hp
            have wz : WFVer z.2 := parse_WF (scanEligible_parse h
              (fun w hw => by obtain rfl := Option.some.inj hw; exact hp))
            cases hc : isNewerThan yv z.2 with
            | false => rfl
            | true =>
              have h2 := newer_trans wrv wyv wz hgt hc
              rw [h2] at hrz
              exact absurd hrz (by decide)
          · exact ih h hy

/-- Maximality of the scan: no eligible strictly-newer list entry is
strictly newer than what the scan returns. -/
theorem scanEligible_max {p : Release → Bool} {cur : SemanticVersion} :
    ∀ {rs : List Release} {acc : Option (Release × SemanticVersion)}
      {z : Release × SemanticVersion},
      scanEligible p cur rs acc = some z →
      (∀ w, acc = some w → parseSemanticVersion w.1.version = some w.2) →
      ∀ r rv, r ∈ rs → parseSemanticVersion r.version = some rv →
        isNewerThan rv cur = true → p r = true →
        isNewerThan rv z.2 = false := by
  intro rs
  induction rs with
  | nil => intro acc z h hacc r rv hm; cases hm
  | cons r' rest ih =>
    intro acc z h hacc r rv hm hp hn hel
    simp only [scanEligible] at h
    rcases List.mem_cons.mp hm with rfl | hm'
    · simp only [hp] at h
      split at h
      · next hc => rw [hn] at hc; exact absurd hc (by decide)
      · split at h
        · next hc => rw [hel] at hc; exact absurd hc (by decide)
        · split at h
          · exact scanEligible_ge_acc h hp
          · split at h
            · exact scanEligible_ge_acc h hp
            · next lr lv hngt =>
              have hlv : parseSemanticVersion lr.version = some lv := hacc _ rfl
              have hlz : isNewerThan lv z.2 = false := scanEligible_ge_acc h hlv
              have wrv := parse_WF hp
              have wlv := parse_WF hlv
              have wz : WFVer z.2 := parse_WF (scanEligible_parse h
                (fun w hw => by obtain rfl := Option.some.inj hw; exact hlv))
              have hngt' : isNewerThan rv lv = false := by simpa using hngt
              cases hc : isNewerThan rv z.2 with
              | false => rfl
              | true =>
                cases hlr : isNewerThan lv rv with
                | true =>
                  have h2 := newer_trans wlv wrv wz hlr hc
                  rw [h2] at hlz
                  exact absurd hlz (by decide)
                | false =>
                  have heq := eq_of_not_newer wrv wlv hngt' hlr
                  rw [heq] at hc
                  rw [hc] at hlz
                  exact absurd hlz (by decide)
    · cases hp' : parseSemanticVersion r'.version with
      | none =>
        simp only [hp'] at h
        exact ih h hacc r rv hm' hp hn hel
      | some rv' =>
        simp only [hp'] at h
        split at h
        · exact ih h hacc r rv hm' hp hn hel
        · split at h
          · exact ih h hacc r rv hm' hp hn hel
          · split at h
            · exact ih h (fun w hw => by obtain rfl := Option.some.inj hw; exact hp')
                r rv hm' hp hn hel
            · split at h
              · exact ih h (fun w hw => by obtain rfl := Option.some.inj hw; exact hp')
                  r rv hm' hp hn hel
              · exact ih h
                  (fun w hw => by obtain rfl := Option.some.inj hw; exact hacc _ rfl)
                  r rv hm' hp hn hel

/-! ## Channel isolation and result invariants -/

theorem channelOfVersion_cases (sv : SemanticVersion) :
    channelOfVersion sv = "alpha" ∨ channelOfVersion sv = "beta" ∨
      channelOfVersion sv = "stable" := by
  unfold channelOfVersion
  split_ifs <;> simp

theorem eligibleByChannel_channel_eq {aa ab : Bool} {cc rc : String}
    (hcc : cc = "alpha" ∨ cc = "beta" ∨ cc = "stable")
    (h : eligibleByChannel aa ab cc rc = true) : rc = cc := by
  rcases hcc with rfl | rfl | rfl <;> simp +decide [eligibleByChannel] at h <;> tauto

/-- Inversion of `findLatestEligibleRelease`: a returned release came from
the list, parses, is strictly newer than the parsed current version, and
passed the channel/permission switch. -/
theorem findLatest_inv {envAlpha envBeta : String} {releases : List Release}
    {currentVersion : String} {r : Release}
    (h : findLatestEligibleRelease envAlpha envBeta releases currentVersion = some r) :
    ∃ csv rv, parseSemanticVersion currentVersion = some csv ∧
      r ∈ releases ∧ parseSemanticVersion r.version = some rv ∧
      isNewerThan rv csv = true ∧
      eligibleByChannel (isEnvVarTrue envAlpha) (isEnvVarTrue envBeta)
        (channelOfVersion csv) (channelOfRelease r) = true := by
  simp only [findLatestEligibleRelease] at h
  cases hcv : parseSemanticVersion currentVersion with
  | none => simp [hcv] at h
  | some csv =>
    simp only [hcv] at h
    rcases Option.map_eq_some'.mp h with ⟨z, hscan, hz⟩
    rcases scanEligible_some_inv hscan with heq | ⟨hm, hp, hn, hel⟩
    · cases heq
    · subst hz
      exact ⟨csv, z.2, rfl, hm, hp, hn, hel⟩

/-- Inversion of `CheckForUpdatesWithResult`: a returned target came from
the list, parses, is strictly newer, and sits in the current channel. -/
theorem checkForUpdates_inv {envAlpha envBeta : String} {releases : List Release}
    {currentVersion : String} {r : Release}
    (h : (checkForUpdatesWithResult envAlpha envBeta releases currentVersion).latestRelease =
      some r) :
    ∃ csv rv, parseSemanticVersion currentVersion = some csv ∧
      r ∈ releases ∧ parseSemanticVersion r.version = some rv ∧
      isNewerThan rv csv = true ∧
      channelOfRelease r = channelOfVersion csv := by
  simp only [checkForUpdatesWithResult] at h
  cases hcv : parseSemanticVersion currentVersion with
  | none => simp [hcv] at h
  | some csv =>
    simp only [hcv] at h
    cases hscan : scanEligible (fun x => decide (channelOfRelease x = channelOfVersion csv))
        csv releases none with
    | none => rw [hscan] at h; simp at h
    | some z =>
      rw [hscan] at h
      simp only at h
      obtain rfl : z.1 = r := Option.some.inj h
      rcases scanEligible_some_inv hscan with heq | ⟨hm, hp, hn, hel⟩
      · cases heq
      · exact ⟨csv, z.2, rfl, hm, hp, hn, of_decide_eq_true hel⟩

/-- C1: channel isolation — whenever `FindLatestEligibleRelease` or
`CheckForUpdatesWithResult` selects a target release, that release's
channel (derived from its `isAlpha`/`isBeta` manifest flags) equals the
channel of the parsed current version, for every setting of the
`CALC_ALLOW_ALPHA` / `CALC_ALLOW_BETA` permission values. -/
theorem C1_channel_isolation (envAlpha envBeta : String) (releases : List Release)
    (currentVersion : String) :
    (∀ r, findLatestEligibleRelease envAlpha envBeta releases currentVersion = some r →
      ∃ csv, parseSemanticVersion currentVersion = some csv ∧
        channelOfRelease r = channelOfVersion csv) ∧
    (∀ r, (checkForUpdatesWithResult envAlpha envBeta releases currentVersion).latestRelease =
        some r →
      ∃ csv, parseSemanticVersion currentVersion = some csv ∧
        channelOfRelease r = channelOfVersion csv) := by
  constructor
  · intro r h
    obtain ⟨csv, rv, hcv, _, _, _, hel⟩ := findLatest_inv h
    exact ⟨csv, hcv, eligibleByChannel_channel_eq (channelOfVersion_cases csv) hel⟩
  · intro r h
    obtain ⟨csv, rv, hcv, _, _, _, hch⟩ := checkForUpdates_inv h
    exact ⟨csv, hcv, hch⟩

theorem C1_channel_isolation_witness :
    ∃ csv, parseSemanticVersion "v1.0.0-beta" = some csv ∧
      channelOfRelease ⟨"v1.1.0-beta", [], false, true, ""⟩ = channelOfVersion csv :=
  (C1_channel_isolation "" "1" [⟨"v1.1.0-beta", [], false, true, ""⟩] "v1.0.0-beta").1
    ⟨"v1.1.0-beta", [], false, true, ""⟩ (by decide)

/-- C10: whenever `CheckForUpdatesWithResult` reports `HasUpdate = true`,
its `LatestRelease` field holds an actual release whose parsed version is
strictly newer than the parsed current version and whose channel equals
the current channel — so the orchestrator's dereferences of
`result.LatestRelease` in the gated and update branches are safe. -/
theorem C10_result_invariant (envAlpha envBeta : String) (releases : List Release)
    (currentVersion : String)
    (h : (checkForUpdatesWithResult envAlpha envBeta releases currentVersion).hasUpdate = true) :
    ∃ r csv rv,
      (checkForUpdatesWithResult envAlpha envBeta releases currentVersion).latestRelease =
        some r ∧
      parseSemanticVersion currentVersion = some csv ∧
      parseSemanticVersion r.version = some rv ∧
      isNewerThan rv csv = true ∧
      channelOfRelease r = channelOfVersion csv := by
  have hsome : ∃ r, (checkForUpdatesWithResult envAlpha envBeta releases
      currentVersion).latestRelease = some r := by
    simp only [checkForUpdatesWithResult] at h ⊢
    cases hcv : parseSemanticVersion currentVersion with
    | none => simp only [hcv] at h; cases h
    | some csv =>
      simp only [hcv] at h ⊢
      cases hscan : scanEligible (fun x => decide (channelOfRelease x = channelOfVersion csv))
          csv releases none with
      | none => simp only [hscan] at h; cases h
      | some z => simp only [hscan]; exact ⟨z.1, rfl⟩
  obtain ⟨r, hr⟩ := hsome
  obtain ⟨csv, rv, hcv, _, hp, hn, hch⟩ := checkForUpdates_inv hr
  exact ⟨r, csv, rv, hr, hcv, hp, hn, hch⟩

theorem C10_result_invariant_witness :
    ∃ r csv rv,
      (checkForUpdatesWithResult "" "" [⟨"v1.1.0-beta", [], false, true, ""⟩]
        "v1.0.0-beta").latestRelease = some r ∧
      parseSemanticVersion "v1.0.0-beta" = some csv ∧
      parseSemanticVersion r.version = some rv ∧
      isNewerThan rv csv = true ∧
      channelOfRelease r = channelOfVersion csv :=
  C10_result_invariant "" "" [⟨"v1.1.0-beta", [], false, true, ""⟩] "v1.0.0-beta" (by decide)

/-! ## Maximality (C2) -/

theorem eligibleByChannel_of_same {aa ab : Bool} {cc rc0 : String}
    (hcc : cc = "alpha" ∨ cc = "beta" ∨ cc = "stable")
    (h : eligibleByChannel aa ab cc rc0 = true) :
    eligibleByChannel aa ab cc cc = true := by
  rcases hcc with rfl | rfl | rfl <;> simp +decide [eligibleByChannel] at h ⊢ <;> tauto

/-- C2: full-scan maximality — when either resolver returns a target, no
release in the manifest that parses, lies in the current channel and is
strictly newer than the current version is strictly newer than the
target; this holds for every ordering of the release list. -/
theorem C2_maximality (envAlpha envBeta : String) (releases : List Release)
    (currentVersion : String) :
    (∀ tgt, findLatestEligibleRelease envAlpha envBeta releases currentVersion = some tgt →
      ∀ tv, parseSemanticVersion tgt.version = some tv →
      ∀ csv, parseSemanticVersion currentVersion = some csv →
      ∀ r ∈ releases, ∀ rv, parseSemanticVersion r.version = some rv →
        channelOfRelease r = channelOfVersion csv → isNewerThan rv csv = true →
        isNewerThan rv tv = false) ∧
    (∀ tgt, (checkForUpdatesWithResult envAlpha envBeta releases
        currentVersion).latestRelease = some tgt →
      ∀ tv, parseSemanticVersion tgt.version = some tv →
      ∀ csv, parseSemanticVersion currentVersion = some csv →
      ∀ r ∈ releases, ∀ rv, parseSemanticVersion r.version = some rv →
        channelOfRelease r = channelOfVersion csv → isNewerThan rv csv = true →
        isNewerThan rv tv = false) := by
  constructor
  · intro tgt h tv htv csv hcv r hm rv hp hch hn
    simp only [findLatestEligibleRelease] at h
    rw [hcv] at h
    simp only at h
    rcases Option.map_eq_some'.mp h with ⟨z, hscan, hz⟩
    have hzp : parseSemanticVersion z.1.version = some z.2 :=
      scanEligible_parse hscan (fun w hw => by cases hw)
    subst hz
    rw [htv] at hzp
    obtain rfl : tv = z.2 := Option.some.inj hzp
    rcases scanEligible_some_inv hscan with heq | ⟨_, _, _, hel⟩
    · cases heq
    · have helig : eligibleByChannel (isEnvVarTrue envAlpha) (isEnvVarTrue envBeta)
          (channelOfVersion csv) (channelOfRelease r) = true := by
        rw [hch]
        exact eligibleByChannel_of_same (channelOfVersion_cases csv) hel
      exact scanEligible_max hscan (fun w hw => by cases hw) r rv hm hp hn helig
  · intro tgt h tv htv csv hcv r hm rv hp hch hn
    simp only [checkForUpdatesWithResult] at h
    rw [hcv] at h
    simp only at h
    cases hscan : scanEligible (fun x => decide (channelOfRelease x = channelOfVersion csv))
        csv releases none with
    | none => rw [hscan] at h; simp at h
    | some z =>
      rw [hscan] at h
      simp only at h
      obtain rfl : z.1 = tgt := Option.some.inj h
      have hzp : parseSemanticVersion z.1.version = some z.2 :=
        scanEligible_parse hscan (fun w hw => by cases hw)
      rw [htv] at hzp
      obtain rfl : tv = z.2 := Option.some.inj hzp
      exact scanEligible_max hscan (fun w hw => by cases hw) r rv hm hp hn
        (decide_eq_true hch)

theorem C2_maximality_witness :
    isNewerThan ⟨0, 0, 11, "alpha", true, false⟩ ⟨0, 0, 12, "alpha", true, false⟩ = false :=
  (C2_maximality "1" "" [⟨"v0.0.1-alpha", [], true, false, ""⟩,
      ⟨"v0.0.10-alpha", [], true, false, ""⟩, ⟨"v0.0.11-alpha", [], true, false, ""⟩,
      ⟨"v0.0.12-alpha", [], true, false, ""⟩] "v0.0.10-alpha").1
    ⟨"v0.0.12-alpha", [], true, false, ""⟩ (by decide)
    ⟨0, 0, 12, "alpha", true, false⟩ (by decide)
    ⟨0, 0, 10, "alpha", true, false⟩ (by decide)
    ⟨"v0.0.11-alpha", [], true, false, ""⟩ (by decide)
    ⟨0, 0, 11, "alpha", true, false⟩ (by decide) (by decide) (by decide)

/-! ## Gating (C3) -/

/-- Whether the permission flag matching the current channel is granted
(`Stable` needs no permission). -/
def permissionGranted (envAlpha envBeta : String) (sv : SemanticVersion) : Bool :=
  if sv.isAlpha then isEnvVarTrue envAlpha
  else if sv.isBeta then isEnvVarTrue envBeta
  else true

/-- The environment variable named by the decision for the current
channel, as `CheckForUpdatesWithResult` assigns it. -/
def requiredEnvVarFor (sv : SemanticVersion) : String :=
  if sv.isAlpha then "CALC_ALLOW_ALPHA" else if sv.isBeta then "CALC_ALLOW_BETA" else ""

/-- C3: when the current version parses and the manifest holds a
parseable strictly-newer release in the same channel,
`CheckForUpdatesWithResult` reports an update, is gated exactly when the
current channel is not Stable and that channel's permission flag is not
granted (so a Stable installation is never gated), and names the
channel's environment variable. -/
theorem C3_gating (envAlpha envBeta : String) (releases : List Release)
    (currentVersion : String) (csv : SemanticVersion)
    (hcv : parseSemanticVersion currentVersion = some csv)
    (hex : ∃ r ∈ releases, ∃ rv, parseSemanticVersion r.version = some rv ∧
      channelOfRelease r = channelOfVersion csv ∧ isNewerThan rv csv = true) :
    (checkForUpdatesWithResult envAlpha envBeta releases currentVersion).hasUpdate = true ∧
    ((checkForUpdatesWithResult envAlpha envBeta releases currentVersion).isGated = true ↔
      (channelOfVersion csv ≠ "stable" ∧ permissionGranted envAlpha envBeta csv = false)) ∧
    (checkForUpdatesWithResult envAlpha envBeta releases currentVersion).requiredEnvVar =
      requiredEnvVarFor csv := by
  obtain ⟨r, hm, rv, hp, hch, hn⟩ := hex
  have hsome : (scanEligible (fun x => decide (channelOfRelease x = channelOfVersion csv))
      csv releases none).isSome = true :=
    scanEligible_isSome_of_mem hm hp hn (decide_eq_true hch)
  simp only [checkForUpdatesWithResult]
  rw [hcv]
  simp only
  cases hscan : scanEligible (fun x => decide (channelOfRelease x = channelOfVersion csv))
      csv releases none with
  | none => rw [hscan] at hsome; cases hsome
  | some z =>
    simp only
    refine ⟨trivial, ?_, by rfl⟩
    cases hA : csv.isAlpha with
    | true => simp +decide [channelOfVersion, permissionGranted, hA]
    | false =>
      cases hB : csv.isBeta with
      | true => simp +decide [channelOfVersion, permissionGranted, hA, hB]
      | false => simp +decide [channelOfVersion, permissionGranted, hA, hB]

theorem C3_gating_witness :
    (checkForUpdatesWithResult "" "" [⟨"v1.1.0-beta", [], false, true, ""⟩]
      "v1.0.0-beta").hasUpdate = true ∧
    ((checkForUpdatesWithResult "" "" [⟨"v1.1.0-beta", [], false, true, ""⟩]
      "v1.0.0-beta").isGated = true ↔
      (channelOfVersion ⟨1, 0, 0, "beta", false, true⟩ ≠ "stable" ∧
        permissionGranted "" "" ⟨1, 0, 0, "beta", false, true⟩ = false)) ∧
    (checkForUpdatesWithResult "" "" [⟨"v1.1.0-beta", [], false, true, ""⟩]
      "v1.0.0-beta").requiredEnvVar = requiredEnvVarFor ⟨1, 0, 0, "beta", false, true⟩ :=
  C3_gating "" "" [⟨"v1.1.0-beta", [], false, true, ""⟩] "v1.0.0-beta"
    ⟨1, 0, 0, "beta", false, true⟩ (by decide)
    ⟨⟨"v1.1.0-beta", [], false, true, ""⟩, by decide,
      ⟨1, 1, 0, "beta", false, true⟩, by decide, by decide, by decide⟩

/-! ## Fail-soft on parse errors (C7) -/

/-- C7: an unparsable current version yields a no-update decision from
both resolvers rather than a crash, and a release entry whose version
text fails to parse is skipped — the scan over the remaining entries is
unchanged. -/
theorem C7_fail_soft (envAlpha envBeta : String) (releases rest : List Release)
    (bad : Release) (currentVersion : String) :
    (parseSemanticVersion currentVersion = none →
      findLatestEligibleRelease envAlpha envBeta releases currentVersion = none ∧
      (checkForUpdatesWithResult envAlpha envBeta releases currentVersion).hasUpdate = false) ∧
    (parseSemanticVersion bad.version = none →
      findLatestEligibleRelease envAlpha envBeta (bad :: rest) currentVersion =
        findLatestEligibleRelease envAlpha envBeta rest currentVersion ∧
      checkForUpdatesWithResult envAlpha envBeta (bad :: rest) currentVersion =
        checkForUpdatesWithResult envAlpha envBeta rest currentVersion) := by
  constructor
  · intro hbadcv
    constructor
    · simp only [findLatestEligibleRelease]
      rw [hbadcv]
    · simp only [checkForUpdatesWithResult]
      rw [hbadcv]
  · intro hbad
    constructor
    · simp only [findLatestEligibleRelease]
      cases hcv : parseSemanticVersion currentVersion with
      | none => rfl
      | some csv => simp only [scanEligible, hbad]
    · simp only [checkForUpdatesWithResult]
      cases hcv : parseSemanticVersion currentVersion with
      | none => rfl
      | some csv => simp only [scanEligible, hbad]

theorem C7_fail_soft_witness :
    (findLatestEligibleRelease "" "" [⟨"v1.1.0", [], false, false, ""⟩] "garbage" = none ∧
      (checkForUpdatesWithResult "" "" [⟨"v1.1.0", [], false, false, ""⟩]
        "garbage").hasUpdate = false) ∧
    (findLatestEligibleRelease "" "" (⟨"not-a-version", [], false, false, ""⟩ ::
        [⟨"v1.1.0", [], false, false, ""⟩]) "v1.0.0" =
      findLatestEligibleRelease "" "" [⟨"v1.1.0", [], false, false, ""⟩] "v1.0.0" ∧
      checkForUpdatesWithResult "" "" (⟨"not-a-version", [], false, false, ""⟩ ::
        [⟨"v1.1.0", [], false, false, ""⟩]) "v1.0.0" =
      checkForUpdatesWithResult "" "" [⟨"v1.1.0", [], false, false, ""⟩] "v1.0.0") :=
  ⟨(C7_fail_soft "" "" [⟨"v1.1.0", [], false, false, ""⟩] []
      ⟨"x", [], false, false, ""⟩ "garbage").1 (by decide),
   (C7_fail_soft "" "" [] [⟨"v1.1.0", [], false, false, ""⟩]
      ⟨"not-a-version", [], false, false, ""⟩ "v1.0.0").2 (by decide)⟩

/-! ## Size gate (C8) -/

/-- C8: a download whose body wrote fewer than 1024 bytes makes the
pipeline fail with the temp file removed and no rename onto the
executable, whatever the later stages would have reported; a body of
1024 bytes or more passes the size gate. -/
theorem C8_size_gate (createOk copyErr : Bool) (bytesWritten : Nat)
    (sigValid chmodOk smokeOk renameOk : Bool) :
    (bytesWritten < 1024 →
      downloadBinary createOk copyErr bytesWritten sigValid chmodOk smokeOk renameOk =
        (false, false, false)) ∧
    (1024 ≤ bytesWritten → createOk = true → copyErr = false →
      writeTemporaryFile createOk copyErr bytesWritten = (true, true)) := by
  constructor
  · intro h
    have hw : writeTemporaryFile createOk copyErr bytesWritten = (false, false) := by
      unfold writeTemporaryFile
      split_ifs <;> rfl
    unfold downloadBinary
    rw [hw]
  · intro h h1 h2
    subst h1
    subst h2
    unfold writeTemporaryFile
    rw [if_neg (by simp), if_neg (by simp), if_neg (by omega)]

theorem C8_size_gate_witness :
    (downloadBinary true false 500 true true true true = (false, false, false)) ∧
    (writeTemporaryFile true false 2048 = (true, true)) :=
  ⟨(C8_size_gate true false 500 true true true true).1 (by decide),
   (C8_size_gate true false 2048 true true true true).2 (by decide) rfl rfl⟩

/-! ## Executable-signature validation (C9) -/

/-- C9 counterexample: a 2-byte payload `4D 5A` begins with the PE
signature, yet `IsValidExecutable` rejects it because fewer than 4 bytes
were read — so acceptance is not exactly "leading bytes match a
signature". -/
theorem C9_counterexample :
    checkPE [0x4D, 0x5A] = true ∧ isValidExecutable [0x4D, 0x5A] = false := by decide

theorem take16_cons4 (b0 b1 b2 b3 : Nat) (rest : List Nat) :
    (b0 :: b1 :: b2 :: b3 :: rest).take 16 = b0 :: b1 :: b2 :: b3 :: rest.take 12 := rfl

theorem checkELF_cons4 (b0 b1 b2 b3 : Nat) (u : List Nat) :
    checkELF (b0 :: b1 :: b2 :: b3 :: u) =
      (decide (b0 = 0x7F) && decide (b1 = 0x45) && decide (b2 = 0x4C) &&
        decide (b3 = 0x46)) := rfl

theorem checkMachO_cons4 (b0 b1 b2 b3 : Nat) (u : List Nat) :
    checkMachO (b0 :: b1 :: b2 :: b3 :: u) =
      ((decide (b0 = 0xFE) && decide (b1 = 0xED) && decide (b2 = 0xFA) && decide (b3 = 0xCE)) ||
       (decide (b0 = 0xCE) && decide (b1 = 0xFA) && decide (b2 = 0xED) && decide (b3 = 0xFE)) ||
       (decide (b0 = 0xFE) && decide (b1 = 0xED) && decide (b2 = 0xFA) && decide (b3 = 0xCF)) ||
       (decide (b0 = 0xCF) && decide (b1 = 0xFA) && decide (b2 = 0xED) && decide (b3 = 0xFE))) :=
  rfl

theorem checkPE_cons2 (b0 b1 : Nat) (u : List Nat) :
    checkPE (b0 :: b1 :: u) = (decide (b0 = 0x4D) && decide (b1 = 0x5A)) := rfl

/-- C9 amended: `IsValidExecutable` accepts exactly the contents at
least 4 bytes long whose leading bytes match the ELF, Mach-O or PE
signature; contents shorter than 4 bytes are rejected even when they
begin with `4D 5A`.  For contents of length ≥ 4 a leading `4D 5A` passes
regardless of platform. -/
theorem C9_signature_validation (content : List Nat) :
    isValidExecutable content = true ↔
      (4 ≤ content.length ∧
        (checkELF content = true ∨ checkMachO content = true ∨ checkPE content = true)) := by
  match content with
  | [] => simp [isValidExecutable]
  | [b0] => simp [isValidExecutable]
  | [b0, b1] => simp [isValidExecutable]
  | [b0, b1, b2] => simp [isValidExecutable]
  | b0 :: b1 :: b2 :: b3 :: rest =>
    simp only [isValidExecutable]
    rw [if_neg (by simp)]
    rw [take16_cons4]
    simp only [List.cons_append, checkELF_cons4, checkMachO_cons4, checkPE_cons2,
      List.length_cons, Bool.or_eq_true]
    constructor
    · intro h
      exact ⟨by omega, by tauto⟩
    · rintro ⟨-, h⟩
      tauto

/-! ## Environment-flag semantics (C6) -/

theorem goLowerChar_eq_zero_iff {c : Char} : goLowerChar c = '0' ↔ c = '0' := by
  unfold goLowerChar
  split <;> simp_all

theorem goToLower_eq_nil_iff {l : List Char} : goToLower l = [] ↔ l = [] := by
  simp [goToLower]

theorem goToLower_eq_zero_iff {l : List Char} : goToLower l = ['0'] ↔ l = ['0'] := by
  cases l with
  | nil => simp [goToLower]
  | cons c t =>
    cases t with
    | nil => simp [goToLower, goLowerChar_eq_zero_iff]
    | cons d t2 => simp [goToLower]

/-- C6 counterexample: the value `" 0"` is non-empty and is neither `"0"`
nor any case variant of `"false"`, yet `isEnvVarTrue` treats it as false,
because the code trims surrounding whitespace before comparing. -/
theorem C6_counterexample :
    (" 0" : String) ≠ "" ∧ (" 0" : String) ≠ "0" ∧
    goToLower (" 0".toList) ≠ "false".toList ∧
    isEnvVarTrue " 0" = false := by decide

/-- C6 amended: a permission flag value is treated as true exactly when,
after trimming surrounding White_Space, the value is non-empty and is
neither `"0"` nor a case-insensitive `"false"`; empty or unset (which Go
reports as the empty string) is false. -/
theorem C6_env_flag_semantics (v : String) :
    isEnvVarTrue v = true ↔
      (goTrimSpace v.toList ≠ [] ∧ goTrimSpace v.toList ≠ ['0'] ∧
        goToLower (goTrimSpace v.toList) ≠ "false".toList) := by
  unfold isEnvVarTrue
  simp only [Bool.and_eq_true, decide_eq_true_eq]
  simp only [ne_eq, goToLower_eq_nil_iff, goToLower_eq_zero_iff]
  tauto

/-! ## String-shape infrastructure for the parse characterization (C4) -/

theorem startsWithL_iff {p s : List Char} :
    startsWithL s p = true ↔ ∃ t, s = p ++ t := by
  induction p generalizing s with
  | nil => simp [startsWithL]
  | cons q ps ih =>
    cases s with
    | nil => simp [startsWithL]
    | cons c cs =>
      simp only [startsWithL, Bool.and_eq_true, decide_eq_true_eq, ih, List.cons_append,
        List.cons.injEq]
      constructor
      · rintro ⟨rfl, t, rfl⟩
        exact ⟨t, rfl, rfl⟩
      · rintro ⟨t, rfl, rfl⟩
        exact ⟨rfl, t, rfl⟩

theorem hasSubL_iff {s sub : List Char} :
    hasSubL s sub = true ↔ ∃ u t, s = u ++ (sub ++ t) := by
  induction s with
  | nil =>
    cases sub with
    | nil =>
      simp only [hasSubL, startsWithL, Bool.or_eq_true]
      constructor
      · intro _; exact ⟨[], [], rfl⟩
      · intro _; left; trivial
    | cons c cs => simp [hasSubL, startsWithL]
  | cons c cs ih =>
    simp only [hasSubL, Bool.or_eq_true, startsWithL_iff, ih]
    constructor
    · rintro (⟨t, heq⟩ | ⟨u, t, heq⟩)
      · exact ⟨[], t, by simpa using heq⟩
      · exact ⟨c :: u, t, by simp [heq]⟩
    · rintro ⟨u, t, heq⟩
      cases u with
      | nil => exact Or.inl ⟨t, by simpa using heq⟩
      | cons u0 us =>
        simp only [List.cons_append, List.cons.injEq] at heq
        obtain ⟨rfl, rfl⟩ := heq
        exact Or.inr ⟨us, t, rfl⟩

theorem hasSubL_append_self (x sub : List Char) : hasSubL (x ++ sub) sub = true :=
  hasSubL_iff.mpr ⟨x, [], by simp⟩

theorem not_hasSubL_of_missing {s sub : List Char} {ch : Char}
    (hch : ch ∈ sub) (hs : ch ∉ s) : hasSubL s sub = false := by
  cases h : hasSubL s sub with
  | false => rfl
  | true =>
    exfalso
    obtain ⟨u, t, rfl⟩ := hasSubL_iff.mp h
    exact hs (by simp [hch])

theorem endsWithL_iff {s suf : List Char} :
    endsWithL s suf = true ↔ ∃ x, s = x ++ suf := by
  unfold endsWithL
  rw [startsWithL_iff]
  constructor
  · rintro ⟨t, ht⟩
    refine ⟨t.reverse, ?_⟩
    have := congrArg List.reverse ht
    simpa using this
  · rintro ⟨x, rfl⟩
    exact ⟨x.reverse, by simp⟩

theorem dropTrailL_append (x suf : List Char) : dropTrailL (x ++ suf) suf = x := by
  unfold dropTrailL
  rw [if_pos (endsWithL_iff.mpr ⟨x, rfl⟩)]
  simp

/-! ### `splitDot` and its inverse -/

theorem splitDot_exists (l : List Char) : ∃ p ps, splitDot l = p :: ps := by
  induction l with
  | nil => exact ⟨[], [], rfl⟩
  | cons c rest ih =>
    obtain ⟨p, ps, hp⟩ := ih
    by_cases hc : c = '.'
    · subst hc
      exact ⟨[], splitDot rest, by simp [splitDot]⟩
    · exact ⟨c :: p, ps, by simp [splitDot, hc, hp]⟩

/-- Rejoin the pieces of a split with `'.'`. -/
def joinDot : List (List Char) → List Char
  | [] => []
  | [p] => p
  | p :: ps => p ++ '.' :: joinDot ps

theorem joinDot_splitDot (l : List Char) : joinDot (splitDot l) = l := by
  induction l with
  | nil => rfl
  | cons c rest ih =>
    obtain ⟨p, ps, hp⟩ := splitDot_exists rest
    by_cases hc : c = '.'
    · subst hc
      simp only [splitDot, if_pos rfl]
      rw [hp] at ih ⊢
      simpa [joinDot] using ih
    · simp only [splitDot, if_neg hc]
      rw [hp] at ih ⊢
      cases ps with
      | nil => simpa [joinDot] using ih
      | cons q qs => simpa [joinDot] using ih

theorem splitDot_append_eq {a : List Char} (h : '.' ∉ a) (rest : List Char) :
    splitDot (a ++ '.' :: rest) = a :: splitDot rest := by
  induction a with
  | nil => simp [splitDot]
  | cons c t ih =>
    have hc : c ≠ '.' := fun hcc => h (hcc ▸ List.mem_cons_self c t)
    have ht : '.' ∉ t := fun hm => h (List.mem_cons_of_mem _ hm)
    simp [splitDot, hc, ih ht]

theorem splitDot_no_dot {a : List Char} (h : '.' ∉ a) : splitDot a = [a] := by
  induction a with
  | nil => rfl
  | cons c t ih =>
    have hc : c ≠ '.' := fun hcc => h (hcc ▸ List.mem_cons_self c t)
    have ht : '.' ∉ t := fun hm => h (List.mem_cons_of_mem _ hm)
    simp [splitDot, hc, ih ht]

theorem mem_splitDot_no_dot {l : List Char} :
    ∀ p ∈ splitDot l, ('.' : Char) ∉ p := by
  induction l with
  | nil =>
    intro p hp
    simp [splitDot] at hp
    simp [hp]
  | cons c rest ih =>
    intro p hp
    by_cases hc : c = '.'
    · subst hc
      simp only [splitDot, if_pos rfl] at hp
      rcases List.mem_cons.mp hp with rfl | hp'
      · simp
      · exact ih p hp'
    · obtain ⟨q, qs, hq⟩ := splitDot_exists rest
      simp only [splitDot, if_neg hc, hq] at hp
      rcases List.mem_cons.mp hp with rfl | hp'
      · intro hdot
        rcases List.mem_cons.mp hdot with heq | hq'
        · exact hc heq.symm
        · exact ih q (hq ▸ List.mem_cons_self q qs) hq'
      · exact ih p (hq ▸ List.mem_cons_of_mem _ hp')

/-! ### Component shape accepted by `strconv.Atoi` -/

/-- A nonempty run of ASCII decimal digits. -/
def DigitsChunk (l : List Char) : Prop := l ≠ [] ∧ ∀ c ∈ l, c.isDigit = true

/-- One version component as `strconv.Atoi` accepts it: an optional sign
followed by digits, with the value inside the 64-bit `int` range. -/
def ComponentShape (l : List Char) : Prop :=
  (DigitsChunk l ∧ (digitsToNat l : Int) ≤ int64Max) ∨
  (∃ d, l = '+' :: d ∧ DigitsChunk d ∧ (digitsToNat d : Int) ≤ int64Max) ∨
  (∃ d, l = '-' :: d ∧ DigitsChunk d ∧ int64Min ≤ -(digitsToNat d : Int))

theorem goAtoi_minus (rest : List Char) :
    goAtoi ('-' :: rest) =
      (if rest = [] then none
      else if rest.all Char.isDigit then
        (if -(digitsToNat rest : Int) < int64Min ∨ int64Max < -(digitsToNat rest : Int)
          then none else some (-(digitsToNat rest : Int)))
      else none) := by
  simp +decide only [goAtoi, if_true, if_false]

theorem goAtoi_plus (rest : List Char) :
    goAtoi ('+' :: rest) =
      (if rest = [] then none
      else if rest.all Char.isDigit then
        (if (digitsToNat rest : Int) < int64Min ∨ int64Max < (digitsToNat rest : Int)
          then none else some (digitsToNat rest : Int))
      else none) := by
  simp +decide only [goAtoi, if_true, if_false]

theorem goAtoi_digit {c0 : Char} (hm : c0 ≠ '-') (hp : c0 ≠ '+') (rest : List Char) :
    goAtoi (c0 :: rest) =
      (if (c0 :: rest).all Char.isDigit then
        (if (digitsToNat (c0 :: rest) : Int) < int64Min ∨
            int64Max < (digitsToNat (c0 :: rest) : Int)
          then none else some (digitsToNat (c0 :: rest) : Int))
      else none) := by
  have hcond : ¬(c0 = '-' ∨ c0 = '+') := by tauto
  simp only [goAtoi, if_neg hcond, decide_eq_true_eq, if_neg hm]
  rw [if_neg (by simp)]

theorem goAtoi_isSome_iff {l : List Char} :
    (goAtoi l).isSome = true ↔ ComponentShape l := by
  cases l with
  | nil => simp [goAtoi, ComponentShape, DigitsChunk]
  | cons c0 rest =>
    by_cases hm : c0 = '-'
    · subst hm
      rw [goAtoi_minus]
      cases rest with
      | nil => simp [ComponentShape, DigitsChunk]
      | cons d ds =>
        rw [if_neg (by simp)]
        unfold ComponentShape DigitsChunk
        by_cases hdig : (d :: ds).all Char.isDigit = true
        · rw [if_pos hdig]
          by_cases hrange : int64Min ≤ -(digitsToNat (d :: ds) : Int)
          · rw [if_neg (by simp only [int64Min, int64Max] at hrange ⊢; omega)]
            simp only [Option.isSome_some, true_iff]
            exact Or.inr (Or.inr ⟨d :: ds, rfl, ⟨by simp, List.all_eq_true.mp hdig⟩, hrange⟩)
          · rw [if_pos (by simp only [int64Min, int64Max] at hrange ⊢; omega)]
            simp only [Option.isSome_none, Bool.false_eq_true, false_iff]
            rintro (⟨⟨-, hall⟩, -⟩ | ⟨e, heq, -, -⟩ | ⟨e, heq, -, hr⟩)
            · exact absurd (hall '-' (List.mem_cons_self _ _)) (by decide)
            · cases heq
            · obtain rfl : d :: ds = e := by injection heq
              exact hrange hr
        · rw [if_neg hdig]
          simp only [Option.isSome_none, Bool.false_eq_true, false_iff]
          rintro (⟨⟨-, hall⟩, -⟩ | ⟨e, heq, -, -⟩ | ⟨e, heq, ⟨-, hall⟩, -⟩)
          · exact absurd (hall '-' (List.mem_cons_self _ _)) (by decide)
          · cases heq
          · obtain rfl : d :: ds = e := by injection heq
            exact hdig (List.all_eq_true.mpr hall)
    · by_cases hp : c0 = '+'
      · subst hp
        rw [goAtoi_plus]
        cases rest with
        | nil => simp [ComponentShape, DigitsChunk]
        | cons d ds =>
          rw [if_neg (by simp)]
          unfold ComponentShape DigitsChunk
          have hnn : (0 : Int) ≤ (digitsToNat (d :: ds) : Int) := Int.natCast_nonneg _
          by_cases hdig : (d :: ds).all Char.isDigit = true
          · rw [if_pos hdig]
            by_cases hrange : (digitsToNat (d :: ds) : Int) ≤ int64Max
            · rw [if_neg (by simp only [int64Min, int64Max] at hrange ⊢; omega)]
              simp only [Option.isSome_some, true_iff]
              exact Or.inr (Or.inl ⟨d :: ds, rfl, ⟨by simp, List.all_eq_true.mp hdig⟩, hrange⟩)
            · rw [if_pos (by simp only [int64Min, int64Max] at hrange ⊢; omega)]
              simp only [Option.isSome_none, Bool.false_eq_true, false_iff]
              rintro (⟨⟨-, hall⟩, -⟩ | ⟨e, heq, -, hr⟩ | ⟨e, heq, -, -⟩)
              · exact absurd (hall '+' (List.mem_cons_self _ _)) (by decide)
              · obtain rfl : d :: ds = e := by injection heq
                exact hrange hr
              · cases heq
          · rw [if_neg hdig]
            simp only [Option.isSome_none, Bool.false_eq_true, false_iff]
            rintro (⟨⟨-, hall⟩, -⟩ | ⟨e, heq, ⟨-, hall⟩, -⟩ | ⟨e, heq, -, -⟩)
            · exact absurd (hall '+' (List.mem_cons_self _ _)) (by decide)
            · obtain rfl : d :: ds = e := by injection heq
              exact hdig (List.all_eq_true.mpr hall)
            · cases heq
      · rw [goAtoi_digit hm hp]
        unfold ComponentShape DigitsChunk
        have hnn : (0 : Int) ≤ (digitsToNat (c0 :: rest) : Int) := Int.natCast_nonneg _
        by_cases hdig : (c0 :: rest).all Char.isDigit = true
        · rw [if_pos hdig]
          by_cases hrange : (digitsToNat (c0 :: rest) : Int) ≤ int64Max
          · rw [if_neg (by simp only [int64Min, int64Max] at hrange ⊢; omega)]
            simp only [Option.isSome_some, true_iff]
            exact Or.inl ⟨⟨by simp, List.all_eq_true.mp hdig⟩, hrange⟩
          · rw [if_pos (by simp only [int64Min, int64Max] at hrange ⊢; omega)]
            simp only [Option.isSome_none, Bool.false_eq_true, false_iff]
            rintro (⟨-, hr⟩ | ⟨e, heq, -, -⟩ | ⟨e, heq, -, -⟩)
            · exact hrange hr
            · exact hp (by injection heq)
            · exact hm (by injection heq)
        · rw [if_neg hdig]
          simp only [Option.isSome_none, Bool.false_eq_true, false_iff]
          rintro (⟨⟨-, hall⟩, -⟩ | ⟨e, heq, -, -⟩ | ⟨e, heq, -, -⟩)
          · exact hdig (List.all_eq_true.mpr hall)
          · exact hp (by injection heq)
          · exact hm (by injection heq)

theorem componentShape_chars {l : List Char} (h : ComponentShape l) :
    ∀ ch ∈ l, ch.isDigit = true ∨ ch = '+' ∨ ch = '-' := by
  intro ch hch
  rcases h with ⟨⟨-, hall⟩, -⟩ | ⟨d, rfl, ⟨-, hall⟩, -⟩ | ⟨d, rfl, ⟨-, hall⟩, -⟩
  · exact Or.inl (hall ch hch)
  · rcases List.mem_cons.mp hch with rfl | hmem
    · exact Or.inr (Or.inl rfl)
    · exact Or.inl (hall ch hmem)
  · rcases List.mem_cons.mp hch with rfl | hmem
    · exact Or.inr (Or.inr rfl)
    · exact Or.inl (hall ch hmem)

theorem componentShape_no_dot {l : List Char} (h : ComponentShape l) :
    ('.' : Char) ∉ l := by
  intro hmem
  rcases componentShape_chars h '.' hmem with hd | he | he
  · exact absurd hd (by decide)
  · exact absurd he (by decide)
  · exact absurd he (by decide)

theorem componentShape_ne_nil {l : List Char} (h : ComponentShape l) : l ≠ [] := by
  rcases h with ⟨⟨hne, -⟩, -⟩ | ⟨d, rfl, -, -⟩ | ⟨d, rfl, -, -⟩
  · exact hne
  · simp
  · simp

/-- Every character of an assembled numeric core is a digit, a sign or a
dot. -/
theorem core_chars {a b c : List Char} (ha : ComponentShape a) (hb : ComponentShape b)
    (hc : ComponentShape c) :
    ∀ ch ∈ a ++ '.' :: (b ++ '.' :: c),
      ch.isDigit = true ∨ ch = '+' ∨ ch = '-' ∨ ch = '.' := by
  intro ch hch
  simp only [List.mem_append, List.mem_cons] at hch
  rcases hch with h | rfl | h | rfl | h
  · rcases componentShape_chars ha ch h with h' | h' | h' <;> tauto
  · tauto
  · rcases componentShape_chars hb ch h with h' | h' | h' <;> tauto
  · tauto
  · rcases componentShape_chars hc ch h with h' | h' | h' <;> tauto

theorem not_mem_core {a b c : List Char} (ha : ComponentShape a) (hb : ComponentShape b)
    (hc : ComponentShape c) {x : Char} (hx : x.isDigit = false ∧ x ≠ '+' ∧ x ≠ '-' ∧ x ≠ '.') :
    x ∉ a ++ '.' :: (b ++ '.' :: c) := by
  intro hmem
  rcases core_chars ha hb hc x hmem with h | h | h | h <;> simp_all

/-- Characterization of the numeric tail: it succeeds exactly on a
three-component dotted core whose components `Atoi` accepts. -/
theorem parseTail_isSome_iff {ia ib : Bool} {pre : String} {v2 : List Char} :
    (parseTail ia ib pre v2).isSome = true ↔
      ∃ a b c, v2 = a ++ '.' :: (b ++ '.' :: c) ∧
        ComponentShape a ∧ ComponentShape b ∧ ComponentShape c := by
  constructor
  · intro h
    unfold parseTail at h
    split at h
    · next a b c hsp =>
      split at h
      · next ma mi pa hA hB hC =>
        have hva : (goAtoi a).isSome = true := by rw [hA]; rfl
        have hvb : (goAtoi b).isSome = true := by rw [hB]; rfl
        have hvc : (goAtoi c).isSome = true := by rw [hC]; rfl
        refine ⟨a, b, c, ?_, goAtoi_isSome_iff.mp hva, goAtoi_isSome_iff.mp hvb,
          goAtoi_isSome_iff.mp hvc⟩
        have := joinDot_splitDot v2
        rw [hsp] at this
        simpa [joinDot] using this.symm
      · cases h
    · cases h
  · rintro ⟨a, b, c, rfl, ha, hb, hc⟩
    have hsp : splitDot (a ++ '.' :: (b ++ '.' :: c)) = [a, b, c] := by
      rw [splitDot_append_eq (componentShape_no_dot ha),
        splitDot_append_eq (componentShape_no_dot hb),
        splitDot_no_dot (componentShape_no_dot hc)]
    unfold parseTail
    rw [hsp]
    dsimp only
    obtain ⟨ma, hma⟩ := Option.isSome_iff_exists.mp (goAtoi_isSome_iff.mpr ha)
    obtain ⟨mi, hmi⟩ := Option.isSome_iff_exists.mp (goAtoi_isSome_iff.mpr hb)
    obtain ⟨pa, hpa⟩ := Option.isSome_iff_exists.mp (goAtoi_isSome_iff.mpr hc)
    rw [hma, hmi, hpa]
    rfl

/-! ### The accepted version shape (C4) -/

theorem dropLeadV_cons_ne {c : Char} (h : c ≠ 'v') (r : List Char) :
    dropLeadV (c :: r) = c :: r := by
  unfold dropLeadV
  split
  · simp_all
  · rfl

theorem dropLeadV_decomp (l : List Char) :
    ∃ pre, (pre = [] ∨ pre = ['v']) ∧ l = pre ++ dropLeadV l := by
  cases l with
  | nil => exact ⟨[], Or.inl rfl, rfl⟩
  | cons c r =>
    by_cases hc : c = 'v'
    · subst hc
      exact ⟨['v'], Or.inr rfl, rfl⟩
    · rw [dropLeadV_cons_ne hc]
      exact ⟨[], Or.inl rfl, rfl⟩

theorem dropLeadV_of_shape {pre a rest' : List Char}
    (hpre : pre = [] ∨ pre = ['v']) (ha : ComponentShape a) :
    dropLeadV (pre ++ (a ++ rest')) = a ++ rest' := by
  rcases hpre with rfl | rfl
  · simp only [List.nil_append]
    obtain ⟨ch, a', rfl⟩ : ∃ ch a', a = ch :: a' := by
      cases a with
      | nil => exact absurd rfl (componentShape_ne_nil ha)
      | cons ch a' => exact ⟨ch, a', rfl⟩
    have hch : ch ≠ 'v' := by
      rcases componentShape_chars ha ch (List.mem_cons_self _ _) with h | h | h
      · intro hv; rw [hv] at h; exact absurd h (by decide)
      · intro hv; rw [hv] at h; exact absurd h (by decide)
      · intro hv; rw [hv] at h; exact absurd h (by decide)
    rw [List.cons_append, dropLeadV_cons_ne hch]
  · rfl

theorem core_tag_assoc (a b c tag : List Char) :
    (a ++ '.' :: (b ++ '.' :: c)) ++ tag = a ++ '.' :: (b ++ '.' :: (c ++ tag)) := by
  simp [List.append_assoc]

/-- The amended acceptance shape of `ParseSemanticVersion`: an optional
leading `'v'`, then three dot-separated components each accepted by Go's
`Atoi` (optional sign, decimal digits, 64-bit range), then an optional
lowercase `"-alpha"` or `"-beta"` suffix. -/
def VersionShape (s : String) : Prop :=
  ∃ pre a b c tag,
    s.toList = pre ++ (a ++ '.' :: (b ++ '.' :: (c ++ tag))) ∧
    (pre = [] ∨ pre = ['v']) ∧
    ComponentShape a ∧ ComponentShape b ∧ ComponentShape c ∧
    (tag = [] ∨ tag = "-alpha".toList ∨ tag = "-beta".toList)

/-- C4 counterexample: `"1.2.-3"` parses although its patch component is
negative, while `"v1.0.0-ALPHA"` fails although it is a well-formed
version with an upper-case suffix, and a 20-digit major component fails
on the 64-bit range even though it is a plain non-negative integer. -/
theorem C4_counterexample :
    (parseSemanticVersion "1.2.-3").isSome = true ∧
    parseSemanticVersion "v1.0.0-ALPHA" = none ∧
    parseSemanticVersion "99999999999999999999.0.0" = none := by decide

/-- C4 amended: `ParseSemanticVersion` succeeds exactly on an optional
leading `'v'` followed by three dot-separated components, each an
optionally signed decimal integer within the signed 64-bit range (so
negative components are accepted), with an optional lowercase-only
`-alpha` or `-beta` suffix after the patch component; every other shape
fails, and no partially-filled version is produced (failure returns
nothing at all). -/
theorem C4_parse_strictness (s : String) :
    (parseSemanticVersion s).isSome = true ↔ VersionShape s := by
  obtain ⟨pre, hpre, hdecomp⟩ := dropLeadV_decomp s.toList
  constructor
  · intro h
    simp only [parseSemanticVersion, parseSemVerL] at h
    split at h
    · next hsub =>
      obtain ⟨a, b, c, hv2, ha, hb, hc⟩ := parseTail_isSome_iff.mp h
      by_cases hend : endsWithL (dropLeadV s.toList) ("-alpha".toList) = true
      · obtain ⟨x, hx⟩ := endsWithL_iff.mp hend
        have hdt : dropTrailL (dropLeadV s.toList) ("-alpha".toList) = x := by
          rw [hx]; exact dropTrailL_append _ _
        have heqx : x = a ++ '.' :: (b ++ '.' :: c) := hdt.symm.trans hv2
        refine ⟨pre, a, b, c, "-alpha".toList, ?_, hpre, ha, hb, hc, Or.inr (Or.inl rfl)⟩
        rw [hdecomp, hx, heqx, core_tag_assoc]
      · exfalso
        have hdt : dropTrailL (dropLeadV s.toList) ("-alpha".toList) = dropLeadV s.toList := by
          unfold dropTrailL; rw [if_neg hend]
        rw [hdt] at hv2
        have hnot : hasSubL (dropLeadV s.toList) ("-alpha".toList) = false := by
          rw [hv2]
          exact not_hasSubL_of_missing (show ('l' : Char) ∈ _ by decide)
            (not_mem_core ha hb hc (by decide))
        rw [hnot] at hsub
        cases hsub
    · next hsubA =>
      split at h
      · next hsubB =>
        obtain ⟨a, b, c, hv2, ha, hb, hc⟩ := parseTail_isSome_iff.mp h
        by_cases hend : endsWithL (dropLeadV s.toList) ("-beta".toList) = true
        · obtain ⟨x, hx⟩ := endsWithL_iff.mp hend
          have hdt : dropTrailL (dropLeadV s.toList) ("-beta".toList) = x := by
            rw [hx]; exact dropTrailL_append _ _
          have heqx : x = a ++ '.' :: (b ++ '.' :: c) := hdt.symm.trans hv2
          refine ⟨pre, a, b, c, "-beta".toList, ?_, hpre, ha, hb, hc, Or.inr (Or.inr rfl)⟩
          rw [hdecomp, hx, heqx, core_tag_assoc]
        · exfalso
          have hdt : dropTrailL (dropLeadV s.toList) ("-beta".toList) = dropLeadV s.toList := by
            unfold dropTrailL; rw [if_neg hend]
          rw [hdt] at hv2
          have hnot : hasSubL (dropLeadV s.toList) ("-beta".toList) = false := by
            rw [hv2]
            exact not_hasSubL_of_missing (show ('b' : Char) ∈ _ by decide)
              (not_mem_core ha hb hc (by decide))
          rw [hnot] at hsubB
          cases hsubB
      · obtain ⟨a, b, c, hv2, ha, hb, hc⟩ := parseTail_isSome_iff.mp h
        refine ⟨pre, a, b, c, [], ?_, hpre, ha, hb, hc, Or.inl rfl⟩
        rw [hdecomp, hv2]
        simp
  · rintro ⟨pre2, a, b, c, tag, hs, hpre2, ha, hb, hc, htag⟩
    simp only [parseSemanticVersion, parseSemVerL]
    have hv : dropLeadV s.toList = a ++ ('.' :: (b ++ '.' :: (c ++ tag))) := by
      rw [hs]; exact dropLeadV_of_shape hpre2 ha
    have hcore : a ++ ('.' :: (b ++ '.' :: (c ++ tag))) =
        (a ++ '.' :: (b ++ '.' :: c)) ++ tag := (core_tag_assoc a b c tag).symm
    rcases htag with rfl | rfl | rfl
    · have hnoA : hasSubL (dropLeadV s.toList) ("-alpha".toList) = false := by
        rw [hv]
        simp only [List.append_nil]
        exact not_hasSubL_of_missing (show ('l' : Char) ∈ _ by decide)
          (not_mem_core ha hb hc (by decide))
      have hnoB : hasSubL (dropLeadV s.toList) ("-beta".toList) = false := by
        rw [hv]
        simp only [List.append_nil]
        exact not_hasSubL_of_missing (show ('b' : Char) ∈ _ by decide)
          (not_mem_core ha hb hc (by decide))
      rw [hnoA, hnoB]
      simp only [Bool.false_eq_true, if_false]
      apply parseTail_isSome_iff.mpr
      exact ⟨a, b, c, by rw [hv]; simp, ha, hb, hc⟩
    · have hsubA : hasSubL (dropLeadV s.toList) ("-alpha".toList) = true := by
        rw [hv, hcore]; exact hasSubL_append_self _ _
      rw [hsubA]
      simp only [if_true]
      have hdt : dropTrailL (dropLeadV s.toList) ("-alpha".toList) =
          a ++ '.' :: (b ++ '.' :: c) := by
        rw [hv, hcore]; exact dropTrailL_append _ _
      rw [hdt]
      exact parseTail_isSome_iff.mpr ⟨a, b, c, rfl, ha, hb, hc⟩
    · have hlA : ('l' : Char) ∉ a ++ '.' :: (b ++ '.' :: (c ++ "-beta".toList)) := by
        rw [← core_tag_assoc]
        intro hmem
        rcases List.mem_append.mp hmem with hmem' | hmem'
        · exact not_mem_core ha hb hc (by decide) hmem'
        · revert hmem'; decide
      have hnoA : hasSubL (dropLeadV s.toList) ("-alpha".toList) = false := by
        rw [hv]
        exact not_hasSubL_of_missing (show ('l' : Char) ∈ _ by decide) hlA
      have hsubB : hasSubL (dropLeadV s.toList) ("-beta".toList) = true := by
        rw [hv, hcore]; exact hasSubL_append_self _ _
      rw [hnoA, hsubB]
      simp only [Bool.false_eq_true, if_false, if_true]
      have hdt : dropTrailL (dropLeadV s.toList) ("-beta".toList) =
          a ++ '.' :: (b ++ '.' :: c) := by
        rw [hv, hcore]; exact dropTrailL_append _ _
      rw [hdt]
      exact parseTail_isSome_iff.mpr ⟨a, b, c, rfl, ha, hb, hc⟩

end CalcUpdater
